import Mathlib

/-!
Verification of the path-parsing and resolver-context core of the `usd-rs`
repository (crate `ar`).  Strings are modelled as lists of characters and the
functions of `src/ar/src/package_utils.rs` and
`src/ar/src/resolver_context/*.rs` are embedded as executable Lean functions,
mirroring the source line by line.
-/

namespace UsdRs

/-- `enumF n l` pairs every element of `l` with its position, counting from
`n`.  `enumF 0 l` models Rust's `path.char_indices()` on the character list
of `path` (positions are character positions; the sources under scrutiny only
ever index at character granularity). -/
def enumF : Nat → List Char → List (Nat × Char)
  | _, [] => []
  | n, c :: rest => (n, c) :: enumF (n + 1) rest

/-- The loop of `find_matching_opening_delimiter`
(`src/ar/src/package_utils.rs`): the argument list is the reversed indexed
character sequence (`path.char_indices().rev()`), `ci` is
`closing_delimiter_index` and the integer is `num_open_needed`.  Entries with
index `≥ ci` are skipped; an unescaped `[` decrements and an unescaped `]`
increments the counter; a delimiter whose predecessor (the next entry of the
reversed sequence) is a backslash is skipped together with that backslash;
the current index is returned as soon as the counter reaches `0`. -/
def scanPairs (ci : Nat) : List (Nat × Char) → Int → Option Nat
  | [], _ => none
  | [(i, ch)], d =>
    if ci ≤ i then none
    else if ch = '[' ∨ ch = ']' then
      let d' := if ch = '[' then d - 1 else d + 1
      if d' = 0 then some i else none
    else
      if d = 0 then some i else none
  | (i, ch) :: (j, c2) :: rest2, d =>
    if ci ≤ i then scanPairs ci ((j, c2) :: rest2) d
    else if ch = '[' ∨ ch = ']' then
      if c2 = '\\' then scanPairs ci rest2 d
      else
        let d' := if ch = '[' then d - 1 else d + 1
        if d' = 0 then some i else scanPairs ci ((j, c2) :: rest2) d'
    else
      if d = 0 then some i else scanPairs ci ((j, c2) :: rest2) d

/-- Model of `find_matching_opening_delimiter` from
`src/ar/src/package_utils.rs`. -/
def find_matching_opening_delimiter (path : List Char)
    (closing_delimiter_index : Nat) : Option Nat :=
  scanPairs closing_delimiter_index (enumF 0 path).reverse 1

/-- Model of `find_outermost_closing_delimiter` from
`src/ar/src/package_utils.rs`. -/
def find_outermost_closing_delimiter (path : List Char) : Option Nat :=
  if path.isEmpty ∨ ¬ path.getLast? = some ']' then none
  else some (path.length - 1)

/-- Rust's `str::replace` for a two-character pattern `[a, b]` replaced by the
single character `c`: the leftmost-first, non-overlapping replacement of every
occurrence. -/
def replaceTwo (a b c : Char) : List Char → List Char
  | [] => []
  | [x] => [x]
  | x :: y :: rest =>
    if x = a ∧ y = b then c :: replaceTwo a b c rest
    else x :: replaceTwo a b c (y :: rest)

/-- The `escape_range_end` binding of `unescape_delimiters`
(`src/ar/src/package_utils.rs`): the whole length if the path ends with `]`,
else the matching opening index for the hypothetical closing position
`len - 1` when one exists, else the whole length. -/
def unescapeEnd (path : List Char) : Nat :=
  if path.getLast? = some ']' then path.length
  else
    match find_matching_opening_delimiter path (path.length - 1) with
    | some outer_open_index => outer_open_index
    | none => path.length

/-- Model of `unescape_delimiters` from `src/ar/src/package_utils.rs`:
determine `escape_range_end`, apply `replace("\\[", "[")` then
`replace("\\]", "]")` to the prefix below it and re-attach the untouched
suffix. -/
def unescape_delimiters (path : List Char) : List Char :=
  if path.isEmpty then path
  else
    replaceTwo '\\' ']' ']'
        (replaceTwo '\\' '[' '[' (path.take (unescapeEnd path)))
      ++ path.drop (unescapeEnd path)

/-- Model of `split_package_relative_path_outer` from
`src/ar/src/package_utils.rs`. -/
def split_package_relative_path_outer (path : List Char) :
    Option (List Char × List Char) :=
  match find_outermost_closing_delimiter path with
  | none => none
  | some close =>
    match find_matching_opening_delimiter path (path.length - 1) with
    | none => none
    | some opn =>
      some (unescape_delimiters (path.take opn), (path.take close).drop (opn + 1))

/-- Model of `is_package_relative_path` from `src/ar/src/package_utils.rs`.
In the source the `&&` chain short-circuits, so `path.len() - 1` is only
evaluated on a non-empty path; here the truncated subtraction is harmless. -/
def is_package_relative_path (path : List Char) : Bool :=
  !path.isEmpty && path.getLast? == some ']'
    && (find_matching_opening_delimiter path (path.length - 1)).isSome

/-- The `escape` operation named by the round-trip law of the specification:
replace each `[` by `\[` and each `]` by `\]`. -/
def escapeDelims : List Char → List Char
  | [] => []
  | c :: rest =>
    if c = '[' ∨ c = ']' then '\\' :: c :: escapeDelims rest
    else c :: escapeDelims rest

/-- The specification's reading of the unescaping step: both two-character
sequences `\[` and `\]` are rewritten simultaneously (order-independent, they
target disjoint sequences).  Stated from the spec's words; compared below with
the source's two successive `replace` passes. -/
def unescapeDelimitersSpec : List Char → List Char
  | [] => []
  | [c] => [c]
  | a :: b :: rest =>
    if a = '\\' ∧ (b = '[' ∨ b = ']') then b :: unescapeDelimitersSpec rest
    else a :: unescapeDelimitersSpec (b :: rest)

/-- Depth effect of running the backward delimiter scan across one (already
reversed) text segment, starting at depth `d`: `some d'` means the scan walks
off the far end of the segment with depth `d'` without having returned;
`none` means the depth would reach `0` inside the segment.  Used to state
when an inner text lets the scan pass through it. -/
def revScanDepth : List Char → Int → Option Int
  | [], d => some d
  | [ch], d =>
    if ch = '[' ∨ ch = ']' then
      let d' := if ch = '[' then d - 1 else d + 1
      if d' = 0 then none else some d'
    else
      if d = 0 then none else some d
  | ch :: c2 :: rest2, d =>
    if ch = '[' ∨ ch = ']' then
      if c2 = '\\' then revScanDepth rest2 d
      else
        let d' := if ch = '[' then d - 1 else d + 1
        if d' = 0 then none else revScanDepth (c2 :: rest2) d'
    else
      if d = 0 then none else revScanDepth (c2 :: rest2) d

/-- `scanPairs` specialised to the region strictly below the closing index:
the loop of `find_matching_opening_delimiter` once every remaining entry has
index `< ci`, so the skip branch never fires. -/
def scanCore : List (Nat × Char) → Int → Option Nat
  | [], _ => none
  | [(i, ch)], d =>
    if ch = '[' ∨ ch = ']' then
      let d' := if ch = '[' then d - 1 else d + 1
      if d' = 0 then some i else none
    else
      if d = 0 then some i else none
  | (i, ch) :: (j, c2) :: rest2, d =>
    if ch = '[' ∨ ch = ']' then
      if c2 = '\\' then scanCore rest2 d
      else
        let d' := if ch = '[' then d - 1 else d + 1
        if d' = 0 then some i else scanCore ((j, c2) :: rest2) d'
    else
      if d = 0 then some i else scanCore ((j, c2) :: rest2) d

/-! ## Resolver context model

A boxed `dyn ClientContext` trait object (`client_context.rs`) is modelled as
a pair of a concrete type tag (`TypeId`, the stable per-type identity used by
`Any::downcast_ref`) and a payload value.  The concrete type's own `PartialEq`
and `PartialOrd` implementations become explicit type-indexed parameters
`eqAt` / `cmpAt`. -/

/-- A type-erased client context: `ty` is the payload's concrete type
(`TypeId`), `val` its value. -/
structure DynClientContext where
  ty : Nat
  val : Nat
deriving DecidableEq

/-- Model of `Any::downcast_ref::<T>` on a boxed client context: yields the
payload exactly when the dynamic type matches `t`. -/
def downcast_ref (t : Nat) (d : DynClientContext) : Option Nat :=
  if d.ty = t then some d.val else none

/-- Model of the blanket `ClientContextCmp::eq_box` (`client_context.rs`):
`other.as_any().downcast_ref::<Self>().map_or(false, |ctx| ctx == self)`,
where `==` is the concrete type's `PartialEq`, modelled by `eqAt`. -/
def eq_box (eqAt : Nat → Nat → Nat → Bool) (a b : DynClientContext) : Bool :=
  match downcast_ref a.ty b with
  | some ctx => eqAt a.ty ctx a.val
  | none => false

/-- Model of the blanket `ClientContextCmp::partial_cmp_box`
(`client_context.rs`).  After a successful downcast the source invokes
`self.partial_cmp_box(ctx)` — the same trait method again, with `ctx` coerced
back to `&dyn ClientContextCmp` — rather than the concrete type's
`PartialOrd::partial_cmp`, so the call recurses with the same receiver and
argument.  `fuel` models the available call stack; the outer `none` marks
stack exhaustion, i.e. a call that never returns. -/
def partial_cmp_box (fuel : Nat) (a b : DynClientContext) :
    Option (Option Ordering) :=
  match fuel with
  | 0 => none
  | Nat.succ fuel' =>
    match downcast_ref a.ty b with
    | some _ => partial_cmp_box fuel' a b
    | none => some none

/-- Model of the single-slot `ResolverContext`
(`resolver_context_v1.rs`): an optional boxed client context. -/
structure ResolverContextV1 where
  context : Option DynClientContext
deriving DecidableEq

/-- `ResolverContext::new` of the single-slot variant: wraps the payload as
the sole element. -/
def ResolverContextV1.new (c : DynClientContext) : ResolverContextV1 :=
  ⟨some c⟩

/-- `ResolverContext::is_empty` of the single-slot variant — the source body
is literally `self.context.is_some()`. -/
def ResolverContextV1.is_empty (r : ResolverContextV1) : Bool :=
  r.context.isSome

/-- Model of the multi-slot `ResolverContext`
(`resolver_context_v2.rs`): an ordered sequence of boxed client contexts. -/
structure ResolverContextV2 where
  contexts : List DynClientContext
deriving DecidableEq

/-- The `for` loop of the multi-slot `ResolverContext::get`: front-to-back,
return the first element whose downcast to the requested type succeeds. -/
def findContext (t : Nat) : List DynClientContext → Option DynClientContext
  | [] => none
  | c :: rest =>
    if (downcast_ref t c).isSome then some c else findContext t rest

/-- `ResolverContext::new` of the multi-slot variant: empty sequence. -/
def ResolverContextV2.new : ResolverContextV2 :=
  ⟨[]⟩

/-- `ResolverContext::push` of the multi-slot variant: appends at the end. -/
def ResolverContextV2.push (r : ResolverContextV2) (c : DynClientContext) :
    ResolverContextV2 :=
  ⟨r.contexts ++ [c]⟩

/-- `ResolverContext::get::<Context>` of the multi-slot variant. -/
def ResolverContextV2.get (r : ResolverContextV2) (t : Nat) :
    Option DynClientContext :=
  findContext t r.contexts

/-- `ResolverContext::is_empty` of the multi-slot variant. -/
def ResolverContextV2.is_empty (r : ResolverContextV2) : Bool :=
  r.contexts.isEmpty

end UsdRs

namespace UsdRs

/-! ## Claim theorems: resolver context -/

/-- C1: the specification asks that `partial_compare` terminate with the
concrete type's ordering when both payloads share a type, and return the
incomparable result otherwise.  The source instead recurses into the very same
trait method after a successful downcast, so on payloads of equal concrete
type the call never returns, for any amount of call stack (`fuel`): the
result is `none` (stack exhaustion) whenever `b.ty = a.ty`, and only the
type-mismatch branch terminates, with the incomparable result `some none`. -/
theorem partial_cmp_box_diverges_on_matching_types :
    ∀ (fuel : Nat) (a b : DynClientContext),
      partial_cmp_box fuel a b =
        if b.ty = a.ty then none
        else if fuel = 0 then none else some none := by
  intro fuel
  induction fuel with
  | zero =>
    intro a b
    by_cases h : b.ty = a.ty <;> simp [partial_cmp_box, h]
  | succ n ih =>
    intro a b
    by_cases h : b.ty = a.ty <;>
      simp [partial_cmp_box, downcast_ref, h, ih]

/-- C2: the claim states that the single-slot `is_empty` reports an unused
slot, hence `ResolverContext::new(p).is_empty()` should be `false`.  The
source body is `self.context.is_some()`, so a freshly constructed context —
whose slot is occupied — reports `true`. -/
theorem resolver_context_v1_new_reports_empty :
    ∀ p : DynClientContext, (ResolverContextV1.new p).is_empty = true := by
  intro p
  rfl

/-- C7: `eq_box` returns `true` exactly when the other payload has the same
concrete type and the two payload values are equal under that type's own
equality (`eqAt`); a type mismatch yields `false`.  Totality (no panic) holds
by construction of the embedding. -/
theorem eq_box_iff_same_type_and_equal :
    ∀ (eqAt : Nat → Nat → Nat → Bool) (a b : DynClientContext),
      eq_box eqAt a b = true ↔ b.ty = a.ty ∧ eqAt a.ty b.val a.val = true := by
  intro eqAt a b
  by_cases h : b.ty = a.ty <;> simp [eq_box, downcast_ref, h]

/-- C8: the multi-slot `get` is the front-to-back first match — it coincides
with `List.find?` on "payload downcasts to the requested type" — and a
context built by pushing one element of type `A` answers `get` positively for
`A` and negatively for any distinct type `B`. -/
theorem resolver_context_v2_get_first_match :
    (∀ (t : Nat) (l : List DynClientContext),
        findContext t l = l.find? (fun c => decide (c.ty = t))) ∧
    (∀ (A B : Nat) (a : DynClientContext), A ≠ B → a.ty = A →
        ((ResolverContextV2.new.push a).get A).isSome = true ∧
        (ResolverContextV2.new.push a).get B = none) := by
  constructor
  · intro t l
    induction l with
    | nil => rfl
    | cons c rest ih =>
      by_cases h : c.ty = t <;>
        simp [findContext, downcast_ref, List.find?, h, ih]
  · intro A B a hAB hA
    constructor <;>
      simp [ResolverContextV2.get, ResolverContextV2.push, ResolverContextV2.new,
        findContext, downcast_ref, hA, hAB]

/-- Witness for C8 at concrete inputs: type tags `0 ≠ 1`, one pushed element
of type `0`. -/
theorem resolver_context_v2_get_first_match_witness :
    ((ResolverContextV2.new.push ⟨0, 5⟩).get 0).isSome = true ∧
    (ResolverContextV2.new.push ⟨0, 5⟩).get 1 = none :=
  resolver_context_v2_get_first_match.2 0 1 ⟨0, 5⟩ (by decide) rfl

/-! ## Claim theorems: path utilities (simple ones) -/

/-- C10: the splitter succeeds exactly on the paths the predicate accepts —
both are decided by the same condition (non-empty, ends with `]`, and a
matching opening delimiter exists for position `len - 1`). -/
theorem split_isSome_iff_is_package_relative_path :
    ∀ path : List Char,
      (split_package_relative_path_outer path).isSome
        = is_package_relative_path path := by
  intro path
  by_cases h1 : path.isEmpty
  · simp [split_package_relative_path_outer, find_outermost_closing_delimiter,
      is_package_relative_path, h1]
  · by_cases h2 : path.getLast? = some ']'
    · cases h3 : find_matching_opening_delimiter path (path.length - 1) <;>
        simp [split_package_relative_path_outer, find_outermost_closing_delimiter,
          is_package_relative_path, h1, h2, h3]
    · simp [split_package_relative_path_outer, find_outermost_closing_delimiter,
        is_package_relative_path, h1, h2]

/-- C4: the splitter computes the outermost closing index and its matching
opening index, propagates `none` if either is absent, unescapes only the
prefix strictly before the opening delimiter and returns the inner part
verbatim; on the spec's example it produces
`("/dir/[foo].package", "bar.package[baz.file]")`. -/
theorem split_package_relative_path_outer_spec :
    (∀ path : List Char,
        split_package_relative_path_outer path =
          match find_outermost_closing_delimiter path,
              find_matching_opening_delimiter path (path.length - 1) with
          | some close, some opn =>
            some (unescape_delimiters (path.take opn),
              (path.take close).drop (opn + 1))
          | _, _ => none) ∧
    split_package_relative_path_outer
        "/dir/\\[foo\\].package[bar.package[baz.file]]".toList
      = some ("/dir/[foo].package".toList, "bar.package[baz.file]".toList) := by
  constructor
  · intro path
    cases h1 : find_outermost_closing_delimiter path <;>
      cases h2 : find_matching_opening_delimiter path (path.length - 1) <;>
        simp [split_package_relative_path_outer, h1, h2]
  · decide

/-- C6: the backward scan skips an escaped delimiter together with its escape
marker without adjusting the depth, and the three delimiter-matching examples
of the specification hold. -/
theorem find_matching_opening_delimiter_examples :
    (∀ (ci i j : Nat) (c : Char) (rest : List (Nat × Char)) (d : Int),
        i < ci → (c = '[' ∨ c = ']') →
        scanPairs ci ((i, c) :: (j, '\\') :: rest) d = scanPairs ci rest d) ∧
    find_matching_opening_delimiter "[asd]".toList 4 = some 0 ∧
    find_matching_opening_delimiter "a[sd]".toList 4 = some 1 ∧
    find_matching_opening_delimiter "a[s\\[d]".toList 6 = some 1 := by
  refine ⟨?_, by decide, by decide, by decide⟩
  intro ci i j c rest d hi hc
  have hnot : ¬ ci ≤ i := by omega
  simp [scanPairs, hnot, hc]

/-- Witness for C6's general conjunct: an escaped `[` directly below the
closing index is skipped with its backslash. -/
theorem find_matching_opening_delimiter_examples_witness :
    scanPairs 2 [(1, '['), (0, '\\')] 1 = scanPairs 2 [] 1 :=
  find_matching_opening_delimiter_examples.1 2 1 0 '[' [] 1 (by decide)
    (Or.inl rfl)

/-! ## The unescaping passes: two successive `replace` calls coincide with the
specification's simultaneous rewriting. -/

lemma replaceTwo_cons_ne_fst (a b c x : Char) (l : List Char) (h : x ≠ a) :
    replaceTwo a b c (x :: l) = x :: replaceTwo a b c l := by
  cases l with
  | nil => rfl
  | cons y rest =>
    have : ¬ (x = a ∧ y = b) := fun hp => h hp.1
    simp [replaceTwo, this]

lemma replaceTwo_cons_cons_ne_snd (a b c x y : Char) (l : List Char)
    (h : y ≠ b) :
    replaceTwo a b c (x :: y :: l) = x :: replaceTwo a b c (y :: l) := by
  have : ¬ (x = a ∧ y = b) := fun hp => h hp.2
  simp [replaceTwo, this]

/-- The first replacement pass maps `b :: rest` to a list whose head is `b`
itself or the replacement character `[`. -/
lemma replaceTwo_open_head (b : Char) (rest : List Char) :
    ∃ hs, replaceTwo '\\' '[' '[' (b :: rest) = b :: hs ∨
      replaceTwo '\\' '[' '[' (b :: rest) = '[' :: hs := by
  cases rest with
  | nil => exact ⟨[], Or.inl rfl⟩
  | cons y r =>
    by_cases hp : b = '\\' ∧ y = '['
    · exact ⟨replaceTwo '\\' '[' '[' r, Or.inr (by simp [replaceTwo, hp])⟩
    · exact ⟨replaceTwo '\\' '[' '[' (y :: r), Or.inl (by simp [replaceTwo, hp])⟩

/-- The source's two successive passes `replace("\\[", "[")` then
`replace("\\]", "]")` compute the specification's simultaneous rewriting of
both escape sequences. -/
lemma replaceTwo_comp_eq_spec :
    ∀ l : List Char,
      replaceTwo '\\' ']' ']' (replaceTwo '\\' '[' '[' l)
        = unescapeDelimitersSpec l := by
  have main : ∀ (n : Nat) (l : List Char), l.length ≤ n →
      replaceTwo '\\' ']' ']' (replaceTwo '\\' '[' '[' l)
        = unescapeDelimitersSpec l := by
    intro n
    induction n with
    | zero =>
      intro l hl
      have : l = [] := List.length_eq_zero.mp (Nat.le_zero.mp hl)
      subst this
      rfl
    | succ n ih =>
      intro l hl
      match l with
      | [] => rfl
      | [c] => simp [replaceTwo, unescapeDelimitersSpec]
      | a :: b :: rest =>
        have hrest : rest.length ≤ n := by
          simp only [List.length_cons] at hl
          omega
        have hbrest : (b :: rest).length ≤ n := by
          simp only [List.length_cons] at hl ⊢
          omega
        by_cases ha : a = '\\'
        · subst ha
          by_cases hb1 : b = '['
          · subst hb1
            rw [show replaceTwo '\\' '[' '[' ('\\' :: '[' :: rest)
                  = '[' :: replaceTwo '\\' '[' '[' rest from by
                simp [replaceTwo]]
            rw [replaceTwo_cons_ne_fst _ _ _ _ _ (by decide)]
            rw [ih rest hrest]
            simp [unescapeDelimitersSpec]
          · by_cases hb2 : b = ']'
            · subst hb2
              rw [replaceTwo_cons_cons_ne_snd _ _ _ _ _ _ (by decide)]
              rw [replaceTwo_cons_ne_fst '\\' '[' '[' ']' rest (by decide)]
              rw [show replaceTwo '\\' ']' ']' ('\\' :: ']' ::
                    replaceTwo '\\' '[' '[' rest)
                  = ']' :: replaceTwo '\\' ']' ']' (replaceTwo '\\' '[' '[' rest)
                  from by simp [replaceTwo]]
              rw [ih rest hrest]
              simp [unescapeDelimitersSpec]
            · -- `b` is neither bracket: the backslash is ordinary text
              rw [replaceTwo_cons_cons_ne_snd _ _ _ _ _ _ hb1]
              have hrec := ih (b :: rest) hbrest
              obtain ⟨hs, hhd⟩ := replaceTwo_open_head b rest
              have hne : ∀ h' t', replaceTwo '\\' '[' '[' (b :: rest)
                  = h' :: t' → h' ≠ ']' := by
                intro h' t' he
                rcases hhd with hh | hh <;> rw [hh] at he <;>
                  cases he <;> first | exact hb2 | decide
              cases hx : replaceTwo '\\' '[' '[' (b :: rest) with
              | nil =>
                rcases hhd with hh | hh <;> rw [hh] at hx <;> cases hx
              | cons h' t' =>
                rw [hx] at hrec
                rw [replaceTwo_cons_cons_ne_snd _ _ _ _ _ _ (hne h' t' hx)]
                rw [hrec]
                have hor : ¬ (b = '[' ∨ b = ']') := by
                  rintro (h' | h')
                  · exact hb1 h'
                  · exact hb2 h'
                simp [unescapeDelimitersSpec, hor]
        · rw [replaceTwo_cons_ne_fst _ _ _ _ _ ha]
          rw [replaceTwo_cons_ne_fst _ _ _ _ _ ha]
          rw [ih (b :: rest) hbrest]
          have hcond : ¬ (a = '\\' ∧ (b = '[' ∨ b = ']')) := fun hp => ha hp.1
          simp [unescapeDelimitersSpec, hcond]
  intro l
  exact main l.length l (Nat.le_refl _)

/-- C5: `unescape_delimiters` leaves the empty path unchanged, and otherwise
applies the simultaneous rewriting `\[ ↦ [`, `\] ↦ ]` to `path[0..end]` while
leaving `path[end..]` untouched, with `end` determined as the claim states;
on the spec's example it produces `/dir/[foo].package[bar.package[baz.file]]`. -/
theorem unescape_delimiters_spec_thm :
    (∀ path : List Char,
        unescape_delimiters path =
          if path.isEmpty then path
          else
            (fun e => unescapeDelimitersSpec (path.take e) ++ path.drop e)
              (if path.getLast? = some ']' then path.length
                else
                  match find_matching_opening_delimiter path (path.length - 1) with
                  | some k => k
                  | none => path.length)) ∧
    unescape_delimiters "/dir/\\[foo\\].package[bar.package[baz.file]]".toList
      = "/dir/[foo].package[bar.package[baz.file]]".toList := by
  constructor
  · intro path
    by_cases h1 : path.isEmpty
    · simp [unescape_delimiters, h1]
    · simp only [unescape_delimiters, h1, if_false]
      rw [replaceTwo_comp_eq_spec]
      rfl
  · decide

/-! ## Index bounds for the backward scan -/

lemma enumF_fst_bounds :
    ∀ (l : List Char) (n : Nat) (p : Nat × Char),
      p ∈ enumF n l → n ≤ p.1 ∧ p.1 < n + l.length := by
  intro l
  induction l with
  | nil => intro n p h; cases h
  | cons c rest ih =>
    intro n p h
    rcases List.mem_cons.mp h with rfl | h2
    · simp
    · have := ih (n + 1) p h2
      constructor <;> [omega; (simp only [List.length_cons]; omega)]

/-- A successful backward scan returns the index of one of the scanned
entries, and that index is strictly below the closing index. -/
lemma scanPairs_some_mem :
    ∀ (ci : Nat) (L : List (Nat × Char)) (d : Int) (i : Nat),
      scanPairs ci L d = some i → i < ci ∧ ∃ c, (i, c) ∈ L := by
  intro ci
  have main : ∀ (n : Nat) (L : List (Nat × Char)), L.length ≤ n →
      ∀ (d : Int) (i : Nat),
        scanPairs ci L d = some i → i < ci ∧ ∃ c, (i, c) ∈ L := by
    intro n
    induction n with
    | zero =>
      intro L hL d i h
      have : L = [] := List.length_eq_zero.mp (Nat.le_zero.mp hL)
      subst this
      simp [scanPairs] at h
    | succ n ih =>
      intro L hL d i h
      match L with
      | [] => simp [scanPairs] at h
      | [(a, ch)] =>
        by_cases h1 : ci ≤ a
        · simp [scanPairs, h1] at h
        · by_cases h2 : ch = '[' ∨ ch = ']'
          · by_cases h3 : (if ch = '[' then d - 1 else d + 1) = 0
            · simp [scanPairs, h1, h2, h3] at h
              subst h
              exact ⟨by omega, ch, by simp⟩
            · simp [scanPairs, h1, h2, h3] at h
          · by_cases h4 : d = 0
            · simp [scanPairs, h1, h2, h4] at h
              subst h
              exact ⟨by omega, ch, by simp⟩
            · simp [scanPairs, h1, h2, h4] at h
      | (a, ch) :: (b, c2) :: rest2 =>
        have hlen1 : ((b, c2) :: rest2).length ≤ n := by
          simp only [List.length_cons] at hL ⊢
          omega
        have hlen2 : rest2.length ≤ n := by
          simp only [List.length_cons] at hL
          omega
        by_cases h1 : ci ≤ a
        · simp only [scanPairs, h1, if_true] at h
          obtain ⟨hlt, c, hmem⟩ := ih _ hlen1 _ _ h
          exact ⟨hlt, c, List.mem_cons_of_mem _ hmem⟩
        · by_cases h2 : ch = '[' ∨ ch = ']'
          · by_cases h3 : c2 = '\\'
            · simp only [scanPairs, h1, if_false, h2, if_true, h3] at h
              obtain ⟨hlt, c, hmem⟩ := ih _ hlen2 _ _ h
              exact ⟨hlt, c,
                List.mem_cons_of_mem _ (List.mem_cons_of_mem _ hmem)⟩
            · by_cases h4 : (if ch = '[' then d - 1 else d + 1) = 0
              · simp [scanPairs, h1, h2, h3, h4] at h
                subst h
                exact ⟨by omega, ch, by simp⟩
              · simp [scanPairs, h1, h2, h3, h4] at h
                obtain ⟨hlt, c, hmem⟩ := ih _ hlen1 _ _ h
                exact ⟨hlt, c, List.mem_cons_of_mem _ hmem⟩
          · by_cases h5 : d = 0
            · simp [scanPairs, h1, h2, h5] at h
              subst h
              exact ⟨by omega, ch, by simp⟩
            · simp [scanPairs, h1, h2, h5] at h
              obtain ⟨hlt, c, hmem⟩ := ih _ hlen1 _ _ h
              exact ⟨hlt, c, List.mem_cons_of_mem _ hmem⟩
  intro L
  exact main L.length L (Nat.le_refl _)

/-- A successful delimiter match names a real character position strictly
below the closing index. -/
lemma find_matching_opening_delimiter_bounds :
    ∀ (path : List Char) (ci i : Nat),
      find_matching_opening_delimiter path ci = some i →
      i < ci ∧ i < path.length := by
  intro path ci i h
  obtain ⟨hlt, c, hmem⟩ := scanPairs_some_mem ci _ 1 i h
  refine ⟨hlt, ?_⟩
  have hmem2 : (i, c) ∈ enumF 0 path := List.mem_reverse.mp hmem
  have := enumF_fst_bounds path 0 (i, c) hmem2
  simpa using this.2

/-- C9: every operation is a total function of its input — the embedding is
defined for all character lists, including malformed ones — and all index
arithmetic stays in bounds: a matched opening delimiter is a real position
strictly below the closing index, and the outermost closing delimiter is the
last position of a non-empty path (so the slices `path[..open]`,
`path[open+1..close]` and `path[..end]` taken by the callers are within
bounds).  Sample malformed inputs (empty path, escaped-only path, unbalanced
brackets) return their negative or best-effort results normally. -/
theorem package_utils_total_and_in_bounds :
    (∀ (path : List Char) (ci : Nat),
        match find_matching_opening_delimiter path ci with
        | some i => i < ci ∧ i < path.length
        | none => True) ∧
    (∀ path : List Char,
        match find_outermost_closing_delimiter path with
        | some close => path ≠ [] ∧ close + 1 = path.length
        | none => True) ∧
    split_package_relative_path_outer [] = none ∧
    unescape_delimiters [] = [] ∧
    is_package_relative_path [] = false ∧
    split_package_relative_path_outer ['\\', ']'] = none ∧
    unescape_delimiters [']', '['] = [']', '['] ∧
    find_matching_opening_delimiter [']'] 0 = none := by
  refine ⟨?_, ?_, by decide, by decide, by decide, by decide, by decide,
    by decide⟩
  · intro path ci
    cases h : find_matching_opening_delimiter path ci with
    | none => trivial
    | some i => exact find_matching_opening_delimiter_bounds path ci i h
  · intro path
    by_cases hnil : path = []
    · simp [find_outermost_closing_delimiter, hnil]
    · by_cases hlast : path.getLast? = some ']'
      · have hpos : 0 < path.length := List.length_pos.mpr hnil
        simp only [find_outermost_closing_delimiter, List.isEmpty_iff, hnil,
          hlast, not_true, or_false, if_false]
        exact ⟨hnil, by omega⟩
      · simp [find_outermost_closing_delimiter, hlast]

/-! ## Structure of the enumeration and of escaped text -/

lemma enumF_append :
    ∀ (A B : List Char) (n : Nat),
      enumF n (A ++ B) = enumF n A ++ enumF (n + A.length) B := by
  intro A
  induction A with
  | nil => intro B n; simp [enumF]
  | cons c rest ih =>
    intro B n
    have harith : n + 1 + rest.length = n + (rest.length + 1) := by omega
    simp only [List.cons_append, enumF, List.length_cons, List.append_eq]
    rw [ih B (n + 1), harith]

lemma enumF_map_snd : ∀ (l : List Char) (n : Nat),
    (enumF n l).map Prod.snd = l := by
  intro l
  induction l with
  | nil => intro n; rfl
  | cons c rest ih => intro n; simp [enumF, ih]

lemma escapeDelims_append :
    ∀ A B : List Char, escapeDelims (A ++ B) = escapeDelims A ++ escapeDelims B := by
  intro A
  induction A with
  | nil => intro B; rfl
  | cons c rest ih =>
    intro B
    by_cases hc : c = '[' ∨ c = ']' <;> simp [escapeDelims, hc, ih]

lemma escapeDelims_eq_nil : ∀ l : List Char, escapeDelims l = [] → l = [] := by
  intro l h
  cases l with
  | nil => rfl
  | cons c r =>
    by_cases hc : c = '[' ∨ c = ']' <;> simp [escapeDelims, hc] at h

lemma escapeDelims_head_not_bracket :
    ∀ (l : List Char) (h : Char) (t : List Char),
      escapeDelims l = h :: t → ¬ (h = '[' ∨ h = ']') := by
  intro l h t he
  cases l with
  | nil => simp [escapeDelims] at he
  | cons c r =>
    by_cases hc : c = '[' ∨ c = ']'
    · simp only [escapeDelims, hc, if_true, List.cons.injEq] at he
      rw [← he.1]
      decide
    · simp only [escapeDelims, hc, if_false, List.cons.injEq] at he
      rw [← he.1]
      exact hc

lemma escapeDelims_getLast? :
    ∀ O : List Char, (escapeDelims O).getLast? = O.getLast? := by
  intro O
  induction O with
  | nil => rfl
  | cons c rest ih =>
    cases rest with
    | nil =>
      by_cases hc : c = '[' ∨ c = ']' <;> simp [escapeDelims, hc]
    | cons r1 rr =>
      cases hE : escapeDelims (r1 :: rr) with
      | nil =>
        exact absurd (escapeDelims_eq_nil _ hE) (by simp)
      | cons e1 et =>
        rw [hE] at ih
        have hstep : escapeDelims (c :: r1 :: rr)
            = (if c = '[' ∨ c = ']'
                then '\\' :: c :: escapeDelims (r1 :: rr)
                else c :: escapeDelims (r1 :: rr)) := rfl
        rw [hstep, hE]
        by_cases hc : c = '[' ∨ c = ']'
        · rw [if_pos hc]
          simp only [List.getLast?_cons_cons]
          exact ih
        · rw [if_neg hc]
          simp only [List.getLast?_cons_cons]
          exact ih

/-! ## Local stepping facts for the backward scan -/

/-- A non-delimiter entry passes through the scan unchanged (whether or not
it lies below the closing index), as long as the needed-count is nonzero. -/
lemma scanPairs_cons_not_delim (ci m : Nat) (c : Char) (rest : List (Nat × Char))
    (d : Int) (hc : ¬ (c = '[' ∨ c = ']')) (hd : ¬ d = 0) :
    scanPairs ci ((m, c) :: rest) d = scanPairs ci rest d := by
  cases rest with
  | nil =>
    by_cases h1 : ci ≤ m <;> simp [scanPairs, h1, hc, hd]
  | cons p rest2 =>
    obtain ⟨j, c2⟩ := p
    by_cases h1 : ci ≤ m <;> simp [scanPairs, h1, hc, hd]

/-- An entry at or above the closing index is skipped. -/
lemma scanPairs_skip_head (ci i : Nat) (c : Char) (rest : List (Nat × Char))
    (d : Int) (h : ci ≤ i) :
    scanPairs ci ((i, c) :: rest) d = scanPairs ci rest d := by
  cases rest with
  | nil => simp [scanPairs, h]
  | cons p rest2 =>
    obtain ⟨j, c2⟩ := p
    simp [scanPairs, h]

/-- An escaped delimiter is skipped together with its escape marker, leaving
the needed-count untouched, as long as that count is nonzero. -/
lemma scanPairs_cons_escaped (ci i j : Nat) (c : Char)
    (rest : List (Nat × Char)) (d : Int) (hc : c = '[' ∨ c = ']')
    (hd : ¬ d = 0) :
    scanPairs ci ((i, c) :: (j, '\\') :: rest) d = scanPairs ci rest d := by
  by_cases h1 : ci ≤ i
  · rw [scanPairs_skip_head ci i c _ d h1]
    exact scanPairs_cons_not_delim ci j '\\' rest d (by decide) hd
  · simp [scanPairs, h1, hc]

/-- Scanning fully escaped text never finds an opening delimiter: every
bracket produced by `escapeDelims` is skipped with its marker, so the scan
falls off the end. -/
lemma scanPairs_escape_none :
    ∀ (O : List Char) (n ci : Nat) (d : Int), ¬ d = 0 →
      scanPairs ci ((enumF n (escapeDelims O)).reverse) d = none := by
  intro O
  induction O using List.reverseRecOn with
  | nil => intro n ci d hd; rfl
  | append_singleton O' c ih =>
    intro n ci d hd
    rw [escapeDelims_append, enumF_append, List.reverse_append]
    by_cases hc : c = '[' ∨ c = ']'
    · have he : escapeDelims [c] = ['\\', c] := by
        simp [escapeDelims, hc]
      rw [he]
      have hshape :
          (enumF (n + (escapeDelims O').length) ['\\', c]).reverse
            = [(n + (escapeDelims O').length + 1, c),
               (n + (escapeDelims O').length, '\\')] := rfl
      rw [hshape]
      rw [List.cons_append, List.cons_append, List.nil_append]
      rw [scanPairs_cons_escaped _ _ _ _ _ _ hc hd]
      exact ih n ci d hd
    · have he : escapeDelims [c] = [c] := by
        simp [escapeDelims, hc]
      rw [he]
      have hshape :
          (enumF (n + (escapeDelims O').length) [c]).reverse
            = [(n + (escapeDelims O').length, c)] := rfl
      rw [hshape]
      rw [List.cons_append, List.nil_append]
      rw [scanPairs_cons_not_delim _ _ _ _ _ hc hd]
      exact ih n ci d hd

/-- Below the closing index the scan coincides with its unguarded core. -/
lemma scanPairs_eq_scanCore :
    ∀ (ci : Nat) (L : List (Nat × Char)) (d : Int),
      (∀ p ∈ L, p.1 < ci) → scanPairs ci L d = scanCore L d := by
  intro ci
  have main : ∀ (n : Nat) (L : List (Nat × Char)), L.length ≤ n →
      ∀ d : Int, (∀ p ∈ L, p.1 < ci) → scanPairs ci L d = scanCore L d := by
    intro n
    induction n with
    | zero =>
      intro L hL d _
      have : L = [] := List.length_eq_zero.mp (Nat.le_zero.mp hL)
      subst this
      rfl
    | succ n ih =>
      intro L hL d hmem
      match L with
      | [] => rfl
      | [(a, ch)] =>
        have h1 : ¬ ci ≤ a := by
          have := hmem (a, ch) (by simp)
          omega
        simp [scanPairs, scanCore, h1]
      | (a, ch) :: (b, c2) :: rest2 =>
        have hlen1 : ((b, c2) :: rest2).length ≤ n := by
          simp only [List.length_cons] at hL ⊢
          omega
        have hlen2 : rest2.length ≤ n := by
          simp only [List.length_cons] at hL
          omega
        have h1 : ¬ ci ≤ a := by
          have := hmem (a, ch) (by simp)
          omega
        have hmem1 : ∀ p ∈ (b, c2) :: rest2, p.1 < ci := fun p hp =>
          hmem p (List.mem_cons_of_mem _ hp)
        have hmem2 : ∀ p ∈ rest2, p.1 < ci := fun p hp =>
          hmem1 p (List.mem_cons_of_mem _ hp)
        by_cases h2 : ch = '[' ∨ ch = ']'
        · by_cases h3 : c2 = '\\'
          · simp only [scanPairs, scanCore, h1, if_false, h2, if_true, h3]
            exact ih rest2 hlen2 d hmem2
          · by_cases h4 : (if ch = '[' then d - 1 else d + 1) = 0
            · simp [scanPairs, scanCore, h1, h2, h3, h4]
            · simp only [scanPairs, scanCore, h1, if_false, h2, if_true, h3,
                h4]
              exact ih _ hlen1 _ hmem1
        · by_cases h5 : d = 0
          · simp [scanPairs, scanCore, h1, h2, h5]
          · simp only [scanPairs, scanCore, h1, if_false, h2, h5]
            exact ih _ hlen1 _ hmem1
  intro L
  exact main L.length L (Nat.le_refl _)

/-- Pass-through: if the depth bookkeeping of a reversed segment `J` runs
from `d` to `e` without reaching zero, the core scan crosses `J` and
continues on the remainder `K` at depth `e`.  The head of `K` must not be a
backslash, so no escape-skip reaches across the boundary. -/
lemma scanCore_append :
    ∀ (K : List (Nat × Char)),
      (∀ k c r, K = (k, c) :: r → ¬ c = '\\') →
      ∀ (n : Nat) (J : List (Nat × Char)), J.length ≤ n →
      ∀ (d e : Int),
        revScanDepth (J.map Prod.snd) d = some e →
        scanCore (J ++ K) d = scanCore K e := by
  intro K hK n
  induction n with
  | zero =>
    intro J hJ d e h
    have : J = [] := List.length_eq_zero.mp (Nat.le_zero.mp hJ)
    subst this
    simp only [List.map_nil, revScanDepth, Option.some.injEq] at h
    rw [h]
    rfl
  | succ n ih =>
    intro J hJ d e h
    match J with
    | [] =>
      simp only [List.map_nil, revScanDepth, Option.some.injEq] at h
      rw [h]
      rfl
    | [(i, ch)] =>
      simp only [List.map_cons, List.map_nil] at h
      by_cases h2 : ch = '[' ∨ ch = ']'
      · by_cases h3 : (if ch = '[' then d - 1 else d + 1) = 0
        · simp [revScanDepth, h2, h3] at h
        · simp only [revScanDepth, h2, if_true, h3, if_false,
            Option.some.injEq] at h
          cases K with
          | nil => simp [scanCore, h2, h3]
          | cons k0 r0 =>
            obtain ⟨k, c⟩ := k0
            have hc : ¬ c = '\\' := hK k c r0 rfl
            simp only [List.cons_append, List.nil_append, scanCore, h2,
              if_true, hc, if_false, h3]
            rw [h]
      · by_cases h4 : d = 0
        · simp [revScanDepth, h2, h4] at h
        · simp only [revScanDepth, h2, if_false, h4, Option.some.injEq] at h
          cases K with
          | nil => simp [scanCore, h2, h4]
          | cons k0 r0 =>
            obtain ⟨k, c⟩ := k0
            simp only [List.cons_append, List.nil_append, scanCore, h2,
              if_false, h4]
            rw [h]
    | (i, ch) :: (j, c2) :: J2 =>
      have hlen1 : ((j, c2) :: J2).length ≤ n := by
        simp only [List.length_cons] at hJ ⊢
        omega
      have hlen2 : J2.length ≤ n := by
        simp only [List.length_cons] at hJ
        omega
      simp only [List.map_cons] at h
      by_cases h2 : ch = '[' ∨ ch = ']'
      · by_cases h3 : c2 = '\\'
        · simp only [revScanDepth, h2, if_true, h3] at h
          simp only [List.cons_append, scanCore, h2, if_true, h3]
          exact ih J2 hlen2 d e h
        · by_cases h4 : (if ch = '[' then d - 1 else d + 1) = 0
          · simp [revScanDepth, h2, h3, h4] at h
          · simp only [revScanDepth, h2, if_true, h3, if_false, h4] at h
            simp only [List.cons_append, scanCore, h2, if_true, h3]
            rw [if_neg h4]
            have := ih ((j, c2) :: J2) hlen1 _ e (by
              simpa only [List.map_cons] using h)
            simpa only [List.cons_append] using this
      · by_cases h5 : d = 0
        · simp [revScanDepth, h2, h5] at h
        · simp only [revScanDepth, h2, if_false, h5] at h
          simp only [List.cons_append, scanCore, h2, if_false]
          rw [if_neg h5]
          have := ih ((j, c2) :: J2) hlen1 d e (by
            simpa only [List.map_cons] using h)
          simpa only [List.cons_append] using this

/-- The simultaneous rewriting inverts `escapeDelims`. -/
lemma unescapeDelimitersSpec_escape :
    ∀ O : List Char, unescapeDelimitersSpec (escapeDelims O) = O := by
  intro O
  induction O with
  | nil => rfl
  | cons c rest ih =>
    by_cases hc : c = '[' ∨ c = ']'
    · simp only [escapeDelims, hc, if_true]
      rw [show unescapeDelimitersSpec ('\\' :: c :: escapeDelims rest)
            = c :: unescapeDelimitersSpec (escapeDelims rest) from by
          simp [unescapeDelimitersSpec, hc]]
      rw [ih]
    · simp only [escapeDelims, hc, if_false]
      cases hrest : escapeDelims rest with
      | nil =>
        have hnil : rest = [] := escapeDelims_eq_nil rest hrest
        subst hnil
        rfl
      | cons e1 et =>
        have hne1 : ¬ (c = '\\' ∧ (e1 = '[' ∨ e1 = ']')) := fun hp =>
          escapeDelims_head_not_bracket rest e1 et hrest hp.2
        rw [hrest] at ih
        rw [show unescapeDelimitersSpec (c :: e1 :: et)
              = c :: unescapeDelimitersSpec (e1 :: et) from by
            simp [unescapeDelimitersSpec, hne1]]
        rw [ih]

/-- Unescaping inverts escaping: on fully escaped text the boundary
computation always selects the whole string (either it ends with `]`, or no
matching opening delimiter is ever found), and the two replacement passes
undo the escape markers. -/
lemma unescape_delimiters_escape :
    ∀ O : List Char, unescape_delimiters (escapeDelims O) = O := by
  intro O
  by_cases hO : O = []
  · subst hO
    rfl
  · have hne : escapeDelims O ≠ [] := fun h => hO (escapeDelims_eq_nil O h)
    have hend : unescapeEnd (escapeDelims O) = (escapeDelims O).length := by
      by_cases hl : (escapeDelims O).getLast? = some ']'
      · simp [unescapeEnd, hl]
      · have hnone : find_matching_opening_delimiter (escapeDelims O)
            ((escapeDelims O).length - 1) = none :=
          scanPairs_escape_none O 0 _ 1 (by decide)
        simp [unescapeEnd, hl, hnone]
    have hnotempty : ¬ (escapeDelims O).isEmpty := by
      simpa [List.isEmpty_iff] using hne
    simp only [unescape_delimiters, hnotempty, if_false, hend,
      List.take_length, List.drop_length, List.append_nil]
    rw [replaceTwo_comp_eq_spec]
    exact unescapeDelimitersSpec_escape O

/-! ## The round-trip law -/

/-- C3 (counterexample to the claim as stated): with outer text `O = ""`
(which contains no brackets at all) and inner text `I = "]"`, the built path
is `"[]]"` and the splitter returns `none`, not `Some(("", "]"))`: the
backward scan counts the unescaped `]` of `I` and never returns to balance. -/
theorem split_roundtrip_counterexample :
    ¬ split_package_relative_path_outer
        (escapeDelims [] ++ '[' :: ([']'] ++ [']'])) = some ([], [']']) := by
  decide

/-- C3 (amended): the round-trip law holds once the outer text does not end
with a backslash (else the built `[` would itself read as escaped) and the
inner text's unescaped delimiters are balanced for the backward scan (the
scan crosses `I` returning to its starting depth without hitting zero):
for all such `O` and `I`,
`split(escape(O) ++ "[" ++ I ++ "]") = Some((O, I))`.  The claim's condition
that `O` contain no unescaped brackets is subsumed: `escape` escapes every
bracket of `O`. -/
theorem split_roundtrip_amended :
    ∀ (O I : List Char), ¬ O.getLast? = some '\\' →
      revScanDepth I.reverse 1 = some 1 →
      split_package_relative_path_outer
        (escapeDelims O ++ '[' :: (I ++ [']'])) = some (O, I) := by
  intro O I hO hI
  have hp1 : escapeDelims O ++ '[' :: (I ++ [']'])
      = ((escapeDelims O ++ ['[']) ++ I) ++ [']'] := by simp
  have hplen : (escapeDelims O ++ '[' :: (I ++ [']'])).length
      = (escapeDelims O).length + I.length + 2 := by
    simp only [List.length_append, List.length_cons, List.length_nil]
    omega
  have hlast : (escapeDelims O ++ '[' :: (I ++ [']'])).getLast? = some ']' := by
    rw [hp1]
    exact List.getLast?_concat _
  have hnonempty : ¬ escapeDelims O ++ '[' :: (I ++ [']']) = [] := by
    rw [hp1]
    simp
  have hfoc : find_outermost_closing_delimiter
      (escapeDelims O ++ '[' :: (I ++ [']']))
      = some ((escapeDelims O ++ '[' :: (I ++ [']'])).length - 1) := by
    simp [find_outermost_closing_delimiter, List.isEmpty_iff, hnonempty, hlast]
  have henum1 : enumF 0 (escapeDelims O ++ '[' :: (I ++ [']']))
      = enumF 0 (escapeDelims O)
        ++ ((escapeDelims O).length, '[')
          :: (enumF ((escapeDelims O).length + 1) I
            ++ [((escapeDelims O).length + 1 + I.length, ']')]) := by
    rw [enumF_append]
    simp only [Nat.zero_add, enumF, enumF_append]
  have henum : (enumF 0 (escapeDelims O ++ '[' :: (I ++ [']']))).reverse
      = ((escapeDelims O).length + 1 + I.length, ']')
          :: ((enumF ((escapeDelims O).length + 1) I).reverse
            ++ ((escapeDelims O).length, '[')
              :: (enumF 0 (escapeDelims O)).reverse) := by
    rw [henum1]
    simp [List.reverse_append, List.append_assoc]
  have hscan : scanPairs ((escapeDelims O).length + 1 + I.length)
      ((enumF 0 (escapeDelims O ++ '[' :: (I ++ [']']))).reverse) 1
      = some (escapeDelims O).length := by
    rw [henum]
    rw [scanPairs_skip_head _ _ _ _ _ (Nat.le_refl _)]
    have hmemall : ∀ q ∈ (enumF ((escapeDelims O).length + 1) I).reverse
        ++ ((escapeDelims O).length, '[')
          :: (enumF 0 (escapeDelims O)).reverse,
        q.1 < (escapeDelims O).length + 1 + I.length := by
      intro q hq
      rcases List.mem_append.mp hq with h | h
      · have := enumF_fst_bounds I _ q (List.mem_reverse.mp h)
        omega
      · rcases List.mem_cons.mp h with rfl | h2
        · simp only []
          omega
        · have := enumF_fst_bounds (escapeDelims O) 0 q (List.mem_reverse.mp h2)
          omega
    rw [scanPairs_eq_scanCore _ _ _ hmemall]
    have hKhead : ∀ k c r,
        (((escapeDelims O).length, '[')
            :: (enumF 0 (escapeDelims O)).reverse) = (k, c) :: r →
          ¬ c = '\\' := by
      intro k c r h
      cases h
      decide
    have hJmap : ((enumF ((escapeDelims O).length + 1) I).reverse).map Prod.snd
        = I.reverse := by
      rw [List.map_reverse, enumF_map_snd]
    rw [scanCore_append _ hKhead
        ((enumF ((escapeDelims O).length + 1) I).reverse).length _
        (Nat.le_refl _) 1 1 (by rw [hJmap]; exact hI)]
    cases hEr : (enumF 0 (escapeDelims O)).reverse with
    | nil => simp [scanCore]
    | cons q r =>
      obtain ⟨k, c0⟩ := q
      have hc0 : ¬ c0 = '\\' := by
        have hmap : ((enumF 0 (escapeDelims O)).reverse).map Prod.snd
            = (escapeDelims O).reverse := by
          rw [List.map_reverse, enumF_map_snd]
        rw [hEr] at hmap
        have hhead : (escapeDelims O).reverse.head? = some c0 := by
          rw [← hmap]
          rfl
        rw [List.head?_reverse, escapeDelims_getLast?] at hhead
        intro hcontra
        rw [hcontra] at hhead
        exact hO hhead
      simp [scanCore, hc0]
  have hfmod : find_matching_opening_delimiter
      (escapeDelims O ++ '[' :: (I ++ [']']))
      ((escapeDelims O ++ '[' :: (I ++ [']'])).length - 1)
      = some (escapeDelims O).length := by
    have hidx : (escapeDelims O ++ '[' :: (I ++ [']'])).length - 1
        = (escapeDelims O).length + 1 + I.length := by
      rw [hplen]
      omega
    rw [show find_matching_opening_delimiter
          (escapeDelims O ++ '[' :: (I ++ [']']))
          ((escapeDelims O ++ '[' :: (I ++ [']'])).length - 1)
        = scanPairs ((escapeDelims O ++ '[' :: (I ++ [']'])).length - 1)
          ((enumF 0 (escapeDelims O ++ '[' :: (I ++ [']']))).reverse) 1
        from rfl]
    rw [hidx]
    exact hscan
  have htake2 : (escapeDelims O ++ '[' :: (I ++ [']'])).take
      ((escapeDelims O ++ '[' :: (I ++ [']'])).length - 1)
      = (escapeDelims O ++ ['[']) ++ I := by
    conv_lhs => rw [hp1]
    refine List.take_left' ?_
    simp only [List.length_append, List.length_cons, List.length_nil]
    omega
  have hdrop : ((escapeDelims O ++ ['[']) ++ I).drop
      ((escapeDelims O).length + 1) = I := by
    refine List.drop_left' ?_
    simp
  simp only [split_package_relative_path_outer, hfoc, hfmod]
  rw [htake2, hdrop]
  rw [show (escapeDelims O ++ '[' :: (I ++ [']'])).take (escapeDelims O).length
        = escapeDelims O from List.take_left _ _]
  rw [unescape_delimiters_escape]

/-- Witness for C3 (amended) at `O = "a"`, `I = "b"`: the built path is
`"a[b]"` and the splitter returns `Some(("a", "b"))`. -/
theorem split_roundtrip_amended_witness :
    split_package_relative_path_outer
      (escapeDelims ['a'] ++ '[' :: (['b'] ++ [']'])) = some (['a'], ['b']) :=
  split_roundtrip_amended ['a'] ['b'] (by decide) (by decide)

end UsdRs
